import Mathlib

/-!
Verification development for `wait_for_zpool_events.py`: a watcher that
filters a stream of zpool event records and sends coalesced notifications
under an escalating backoff schedule.  Wall-clock times are modelled as
naturals (seconds); the external calls (event stream, `zpool status`,
notifier) appear as explicit inputs and outputs of the modelled functions.
-/

namespace ZpoolEvents

/-! ### Characters and strings

Python string helpers restricted to ASCII text (event records are ASCII):
`isPySpace` is the whitespace class shared by `str.strip()` and the regex
class `\s`; `isWordChar` is the regex class `\w`; `charListLe`/`strLe` is
Python's code-point lexicographic string order. -/

def isPySpace (c : Char) : Bool :=
  c == ' ' || c == '\t' || c == '\n' || c == '\r' || c == '\x0b' || c == '\x0c'

def isWordChar (c : Char) : Bool :=
  c.isAlphanum || c == '_'

def charListLe : List Char → List Char → Bool
  | [], _ => true
  | _ :: _, [] => false
  | a :: as, b :: bs =>
    if a.toNat < b.toNat then true
    else if b.toNat < a.toNat then false
    else charListLe as bs

def strLe (a b : String) : Bool :=
  charListLe a.data b.data

/-- `listStartsWith s pat`: `s` begins with `pat`. -/
def listStartsWith : List Char → List Char → Bool
  | _, [] => true
  | [], _ :: _ => false
  | a :: as, b :: bs => a == b && listStartsWith as bs

/-- `listContainsSub s pat`: `pat` occurs somewhere in `s` (Python `pat in s`). -/
def listContainsSub : List Char → List Char → Bool
  | [], pat => pat.isEmpty
  | c :: rest, pat => listStartsWith (c :: rest) pat || listContainsSub rest pat

def containsSubstr (s pat : String) : Bool :=
  listContainsSub s.data pat.data

def stripTrailing (l : List Char) : List Char :=
  (l.reverse.dropWhile isPySpace).reverse

/-- Python `s.strip()`: drop leading and trailing whitespace. -/
def pyStrip (s : String) : String :=
  ⟨stripTrailing (s.data.dropWhile isPySpace)⟩

/-! ### The timestamp regex

`re.sub(r'^\w{3}\s+\d{1,2}\s+\d{4}\s+\d{2}:\d{2}:\d{2}\.\d{9}\s+', '', event)`
(lines 157-158 of the script).  The pattern is anchored at position 0 and
every adjacent pair of tokens draws from disjoint character classes, so the
backtracking regex is equivalent to the deterministic maximal-run parser
below: each counted class must match a maximal run of exactly (or, for
`{1,2}`, between) the stated lengths, and each `\s+` a maximal nonempty
whitespace run. -/

def takeExactRun (p : Char → Bool) (n : Nat) (l : List Char) : Option (List Char) :=
  if (l.takeWhile p).length = n then some (l.dropWhile p) else none

def takeRunBetween (p : Char → Bool) (lo hi : Nat) (l : List Char) : Option (List Char) :=
  if lo ≤ (l.takeWhile p).length ∧ (l.takeWhile p).length ≤ hi then
    some (l.dropWhile p)
  else none

def takeRunAtLeastOne (p : Char → Bool) (l : List Char) : Option (List Char) :=
  if 1 ≤ (l.takeWhile p).length then some (l.dropWhile p) else none

def expectChar (c : Char) : List Char → Option (List Char)
  | [] => none
  | a :: rest => if a == c then some rest else none

/-- Match the timestamp pattern at the start of `l`; on success return the
rest of the record (what `re.sub` leaves behind). -/
def parseTimestamp (l : List Char) : Option (List Char) :=
  (takeExactRun isWordChar 3 l).bind fun l =>
  (takeRunAtLeastOne isPySpace l).bind fun l =>
  (takeRunBetween Char.isDigit 1 2 l).bind fun l =>
  (takeRunAtLeastOne isPySpace l).bind fun l =>
  (takeExactRun Char.isDigit 4 l).bind fun l =>
  (takeRunAtLeastOne isPySpace l).bind fun l =>
  (takeExactRun Char.isDigit 2 l).bind fun l =>
  (expectChar ':' l).bind fun l =>
  (takeExactRun Char.isDigit 2 l).bind fun l =>
  (expectChar ':' l).bind fun l =>
  (takeExactRun Char.isDigit 2 l).bind fun l =>
  (expectChar '.' l).bind fun l =>
  (takeExactRun Char.isDigit 9 l).bind fun l =>
  takeRunAtLeastOne isPySpace l

/-- `re.sub(pattern, '', event)`: strip the timestamp prefix if the pattern
matches, otherwise a no-op. -/
def stripTimestamp (s : String) : String :=
  match parseTimestamp s.data with
  | some rest => ⟨rest⟩
  | none => s

/-! ### Event intake (`main`, lines 136-160, and `is_scrub_in_progress`)

The external calls appear as explicit inputs: `zpoolStatus` is the result of
`subprocess.check_output(['zpool', 'status'])` (`Except.error` when the call
raises), `lines` the startup backlog snapshot, `raw` one line read from
`zpool events -f -H`.  An `Except.error` result of `processLine` is an
exception escaping the per-event evaluation of the intake loop. -/

/-- Python `'\n'`-splitting of a string (`str.split('\n')`). -/
def splitLines : List Char → List (List Char)
  | [] => [[]]
  | c :: rest =>
    match splitLines rest with
    | [] => [[]]
    | line :: more => if c == '\n' then [] :: line :: more else (c :: line) :: more

/-- Lines 24-35: scan the `zpool status` output for a line containing
`'scrub in progress'`; a failure of the status command raises. -/
def is_scrub_in_progress (zpoolStatus : Except Unit String) : Except Unit Bool :=
  match zpoolStatus with
  | .error e => .error e
  | .ok output =>
    .ok ((splitLines output.data).any fun line => listContainsSub line "scrub in progress".data)

/-- Lines 139-146: the static ignore-list. -/
def uninteresting_events : List String :=
  ["sysevent.fs.zfs.history_event",
   "sysevent.fs.zfs.trim_start",
   "sysevent.fs.zfs.trim_finish",
   "sysevent.fs.zfs.scrub_start"]

/-- Lines 137-160, one iteration of the intake loop: strip the raw line,
then the `if`/`elif` chain — ignore-list, scrub-finish suppression (the
status oracle is consulted only there, short-circuit `and`), startup
snapshot dedup — and otherwise deliver the timestamp-stripped label.
`Except.ok none` = discarded, `Except.ok (some lbl)` = `lbl` enqueued,
`Except.error` = the status-oracle exception propagates uncaught. -/
def processLine (lines : List String) (zpoolStatus : Except Unit String)
    (raw : String) : Except Unit (Option String) :=
  let event := pyStrip raw
  if uninteresting_events.any (fun e => containsSubstr event e) then
    .ok none
  else
    match (if containsSubstr event "sysevent.fs.zfs.scrub_finish" then
             is_scrub_in_progress zpoolStatus
           else .ok false) with
    | .error e => .error e
    | .ok true => .ok none
    | .ok false =>
      if event ∈ lines then .ok none
      else .ok (some (stripTimestamp event))

/-! ### The coalescing backoff scheduler (`send_events_thread`, lines 62-124)

The thread's loop state is `notification_index` (`-1` = idle), the absolute
deadline `next_send_time` and the pending batch `ready_to_send` (a
`defaultdict` holding label -> count, insertion-ordered).  The loop blocks on
`event_queue.get` with `timeout = next_send_time - now`.  The two possible
outcomes are embedded as two transition functions on the state: `submit`
(an item arrived before the deadline, lines 92-101) and `expire` (the
deadline passed: `queue.Empty` at line 103, or `timeout <= 0`; lines
106-120, with `break` re-entering the outer loop at lines 80-85).  `expire`
also returns the notification text handed to `send_zpool_status`, if any. -/

def SECONDS_BETWEEN_NOTIFICATIONS : List Nat :=
  [30, 5*60, 30*60, 2*3600, 12*3600, 24*3600, 48*3600]

def MAX_SECONDS_BETWEEN_NOTIFICATIONS : Nat := 86400*60

/-- `SECONDS_BETWEEN_NOTIFICATIONS[i]` for the in-range indices the loop
uses (`0 ≤ i ≤ 6`). -/
def ladderAt (i : Int) : Nat :=
  SECONDS_BETWEEN_NOTIFICATIONS.getD i.toNat 0

structure SchedState where
  notification_index : Int
  next_send_time : Nat
  ready_to_send : List (String × Nat)
  deriving Repr, DecidableEq

/-- Lines 80-84: the outer loop body re-initialises the state. -/
def initState (now : Nat) : SchedState :=
  { notification_index := -1
    next_send_time := now + MAX_SECONDS_BETWEEN_NOTIFICATIONS
    ready_to_send := [] }

/-- `ready_to_send[item] += 1` on the insertion-ordered map. -/
def bump : List (String × Nat) → String → List (String × Nat)
  | [], item => [(item, 1)]
  | (k, c) :: rest, item =>
    if k = item then (k, c + 1) :: rest else (k, c) :: bump rest item

/-- `ready_to_send[l]`, 0 when absent. -/
def getCount : List (String × Nat) → String → Nat
  | [], _ => 0
  | (k, c) :: rest, l => if k = l then c else getCount rest l

/-- Lines 92-101: an item arrives from the queue before the deadline
(`timeout > 0` and `get` returned).  The count is bumped; only from state
`-1` do the deadline and index change. -/
def submit (st : SchedState) (item : String) (now : Nat) : SchedState :=
  let b := bump st.ready_to_send item
  if st.notification_index = -1 then
    { notification_index := 0
      next_send_time := now + SECONDS_BETWEEN_NOTIFICATIONS.getD 0 0
      ready_to_send := b }
  else
    { st with ready_to_send := b }

/-- Insertion sort of the batch items by label, Python
`sorted(ready_to_send.items())` (labels are distinct keys, so the
lexicographic label order decides). -/
def insertSorted (x : String × Nat) : List (String × Nat) → List (String × Nat)
  | [] => [x]
  | y :: ys => if strLe x.1 y.1 then x :: y :: ys else y :: insertSorted x ys

def sortBatch (b : List (String × Nat)) : List (String × Nat) :=
  b.foldr insertSorted []

/-- The notification ordering on batch items: compare labels. -/
def entryLe (a b : String × Nat) : Prop := strLe a.1 b.1 = true

/-- `max(ready_to_send.values())`; the call site (line 110) guarantees the
batch is nonempty. -/
def maxCount (b : List (String × Nat)) : Nat :=
  (b.map (·.2)).foldr max 0

/-- Python `", ".join(...)`. -/
def joinComma : List String → String
  | [] => ""
  | [x] => x
  | x :: y :: rest => x ++ ", " ++ joinComma (y :: rest)

/-- Lines 110-113: render the batch as the notification text. -/
def render (b : List (String × Nat)) : String :=
  if maxCount b = 1 then
    joinComma ((sortBatch b).map (·.1))
  else
    joinComma ((sortBatch b).map fun e => e.1 ++ ":" ++ toString e.2)

/-- Lines 106-120 (plus the `break` back into lines 80-84): the deadline
passed at time `now`.  Empty batch: return to the idle outer-loop state.
Nonempty batch: send the rendered text, advance the ladder index with
saturation, clear the batch, schedule the next deadline. -/
def expire (st : SchedState) (now : Nat) : SchedState × Option String :=
  if st.ready_to_send.isEmpty then
    (initState now, none)
  else
    let s := render st.ready_to_send
    let idx := min (st.notification_index + 1) ((SECONDS_BETWEEN_NOTIFICATIONS.length : Int) - 1)
    ({ notification_index := idx
       next_send_time := now + ladderAt idx
       ready_to_send := [] }, some s)

/-- A sequence of queue arrivals, each as (label, arrival time). -/
def applySubmits (st : SchedState) : List (String × Nat) → SchedState
  | [] => st
  | (l, t) :: rest => applySubmits (submit st l t) rest

/-! ### Batch lemmas -/

theorem getCount_bump_same (b : List (String × Nat)) (l : String) :
    getCount (bump b l) l = getCount b l + 1 := by
  induction b with
  | nil => simp [bump, getCount]
  | cons e rest ih =>
    obtain ⟨k, c⟩ := e
    by_cases hk : k = l <;> simp [bump, getCount, hk, ih]

theorem getCount_bump_ne : ∀ (b : List (String × Nat)) (l x : String), x ≠ l →
    getCount (bump b l) x = getCount b x
  | [], l, x, hx => by
    simp only [bump, getCount]
    rw [if_neg (fun h => hx h.symm)]
  | (k, c) :: rest, l, x, hx => by
    by_cases hk : k = l
    · have hkx : k ≠ x := by rw [hk]; exact fun h => hx h.symm
      simp only [bump, if_pos hk, getCount]
      rw [if_neg hkx, if_neg hkx]
    · simp only [bump, if_neg hk, getCount]
      by_cases hkx : k = x
      · rw [if_pos hkx, if_pos hkx]
      · rw [if_neg hkx, if_neg hkx, getCount_bump_ne rest l x hx]

theorem mem_keys_bump (b : List (String × Nat)) (l x : String) :
    x ∈ (bump b l).map Prod.fst ↔ x ∈ b.map Prod.fst ∨ x = l := by
  induction b with
  | nil => simp [bump]
  | cons e rest ih =>
    obtain ⟨k, c⟩ := e
    by_cases hk : k = l
    · subst hk
      simp [bump]
      tauto
    · simp [bump, hk, ih]
      tauto

theorem nodup_keys_bump (b : List (String × Nat)) (l : String)
    (h : (b.map Prod.fst).Nodup) : ((bump b l).map Prod.fst).Nodup := by
  induction b with
  | nil => simp [bump]
  | cons e rest ih =>
    obtain ⟨k, c⟩ := e
    simp only [List.map_cons, List.nodup_cons] at h
    by_cases hk : k = l
    · subst hk
      have hb : bump ((k, c) :: rest) k = (k, c + 1) :: rest := by simp [bump]
      rw [hb]
      simp only [List.map_cons, List.nodup_cons]
      exact ⟨h.1, h.2⟩
    · simp only [bump, if_neg hk, List.map_cons, List.nodup_cons]
      refine ⟨?_, ih h.2⟩
      rw [mem_keys_bump]
      rintro (hm | hm)
      · exact h.1 hm
      · exact hk hm

theorem counts_pos_bump (b : List (String × Nat)) (l : String)
    (h : ∀ e ∈ b, 1 ≤ e.2) : ∀ e ∈ bump b l, 1 ≤ e.2 := by
  induction b with
  | nil =>
    intro e he
    simp [bump] at he
    simp [he]
  | cons y rest ih =>
    obtain ⟨k, c⟩ := y
    intro e he
    by_cases hk : k = l
    · subst hk
      simp only [bump, if_pos rfl] at he
      rcases List.mem_cons.1 he with h1 | h1
      · subst h1
        simp
      · exact h e (List.mem_cons_of_mem _ h1)
    · simp only [bump, if_neg hk] at he
      rcases List.mem_cons.1 he with h1 | h1
      · subst h1
        exact h (k, c) (by simp)
      · exact ih (fun e' he' => h e' (List.mem_cons_of_mem _ he')) e h1

theorem bump_ne_nil (b : List (String × Nat)) (l : String) : bump b l ≠ [] := by
  cases b with
  | nil => simp [bump]
  | cons e rest =>
    obtain ⟨k, c⟩ := e
    by_cases hk : k = l <;> simp [bump, hk]

theorem getCount_eq_of_mem (b : List (String × Nat)) (k : String) (c : Nat)
    (hnd : (b.map Prod.fst).Nodup) (hm : (k, c) ∈ b) : getCount b k = c := by
  induction b with
  | nil => simp at hm
  | cons e rest ih =>
    obtain ⟨k', c'⟩ := e
    simp only [List.map_cons, List.nodup_cons] at hnd
    rcases List.mem_cons.1 hm with h1 | h1
    · injection h1 with h2 h3
      subst h2; subst h3
      simp [getCount]
    · have hne : k' ≠ k := by
        intro heq
        subst heq
        exact hnd.1 (by simpa using List.mem_map_of_mem Prod.fst h1)
      simp [getCount, hne, ih hnd.2 h1]

theorem getCount_pos_iff_mem (b : List (String × Nat)) (x : String)
    (h : ∀ e ∈ b, 1 ≤ e.2) : 0 < getCount b x ↔ x ∈ b.map Prod.fst := by
  induction b with
  | nil => simp [getCount]
  | cons e rest ih =>
    obtain ⟨k, c⟩ := e
    have hrest := fun e' he' => h e' (List.mem_cons_of_mem _ he')
    by_cases hk : k = x
    · subst hk
      have hc : 1 ≤ c := by simpa using h (k, c) (List.mem_cons_self _ _)
      have hg : getCount ((k, c) :: rest) k = c := by simp [getCount]
      rw [hg]
      constructor
      · intro _
        exact List.mem_cons.2 (Or.inl rfl)
      · intro _; omega
    · simp only [getCount, if_neg hk, List.map_cons, List.mem_cons, ih hrest]
      constructor
      · exact Or.inr
      · rintro (hx | hx)
        · exact absurd hx.symm hk
        · exact hx

/-! ### Submit and batch-accumulation lemmas -/

theorem submit_ready (st : SchedState) (l : String) (t : Nat) :
    (submit st l t).ready_to_send = bump st.ready_to_send l := by
  unfold submit
  split <;> rfl

theorem submit_frame (st : SchedState) (l : String) (t : Nat)
    (h : st.notification_index ≠ -1) :
    (submit st l t).notification_index = st.notification_index ∧
    (submit st l t).next_send_time = st.next_send_time := by
  unfold submit
  rw [if_neg h]
  exact ⟨rfl, rfl⟩

theorem applySubmits_ready (subs : List (String × Nat)) : ∀ st : SchedState,
    (applySubmits st subs).ready_to_send =
      (subs.map Prod.fst).foldl bump st.ready_to_send := by
  induction subs with
  | nil => intro st; rfl
  | cons s rest ih =>
    intro st
    obtain ⟨l, t⟩ := s
    simp only [applySubmits, List.map_cons, List.foldl_cons]
    rw [ih, submit_ready]

theorem applySubmits_frame (subs : List (String × Nat)) : ∀ st : SchedState,
    st.notification_index ≠ -1 →
    (applySubmits st subs).notification_index = st.notification_index ∧
    (applySubmits st subs).next_send_time = st.next_send_time := by
  induction subs with
  | nil => intro st _; exact ⟨rfl, rfl⟩
  | cons s rest ih =>
    intro st h
    obtain ⟨l, t⟩ := s
    have hf := submit_frame st l t h
    have h2 : (submit st l t).notification_index ≠ -1 := by rw [hf.1]; exact h
    simp only [applySubmits]
    obtain ⟨ha, hb⟩ := ih (submit st l t) h2
    exact ⟨ha.trans hf.1, hb.trans hf.2⟩

theorem getCount_foldl_bump (ls : List String) : ∀ (b : List (String × Nat)) (x : String),
    getCount (ls.foldl bump b) x = getCount b x + ls.count x := by
  induction ls with
  | nil => intro b x; simp
  | cons l rest ih =>
    intro b x
    simp only [List.foldl_cons, ih, List.count_cons]
    by_cases hx : x = l
    · subst hx
      rw [getCount_bump_same]
      simp
      omega
    · rw [getCount_bump_ne b l x hx]
      have : ¬ (l == x) = true := by simpa [beq_iff_eq] using fun h => hx h.symm
      simp [this]

theorem mem_keys_foldl_bump (ls : List String) : ∀ (b : List (String × Nat)) (x : String),
    x ∈ (ls.foldl bump b).map Prod.fst ↔ x ∈ b.map Prod.fst ∨ x ∈ ls := by
  induction ls with
  | nil => intro b x; simp
  | cons l rest ih =>
    intro b x
    simp only [List.foldl_cons, ih, mem_keys_bump, List.mem_cons]
    tauto

theorem nodup_keys_foldl_bump (ls : List String) : ∀ b : List (String × Nat),
    (b.map Prod.fst).Nodup → ((ls.foldl bump b).map Prod.fst).Nodup := by
  induction ls with
  | nil => intro b h; exact h
  | cons l rest ih =>
    intro b h
    exact ih (bump b l) (nodup_keys_bump b l h)

theorem counts_pos_foldl_bump (ls : List String) : ∀ b : List (String × Nat),
    (∀ e ∈ b, 1 ≤ e.2) → ∀ e ∈ ls.foldl bump b, 1 ≤ e.2 := by
  induction ls with
  | nil => intro b h; exact h
  | cons l rest ih =>
    intro b h
    exact ih (bump b l) (counts_pos_bump b l h)

theorem foldl_bump_ne_nil (ls : List String) : ∀ b : List (String × Nat),
    b ≠ [] → ls.foldl bump b ≠ [] := by
  induction ls with
  | nil => intro b h; exact h
  | cons l rest ih =>
    intro b _
    exact ih (bump b l) (bump_ne_nil b l)

/-! ### Sorting and rendering lemmas -/

theorem charListLe_total : ∀ a b : List Char,
    charListLe a b = true ∨ charListLe b a = true
  | [], _ => Or.inl rfl
  | _ :: _, [] => Or.inr rfl
  | x :: xs, y :: ys => by
    simp only [charListLe]
    by_cases h1 : x.toNat < y.toNat
    · left; rw [if_pos h1]
    · by_cases h2 : y.toNat < x.toNat
      · right; rw [if_pos h2]
      · rw [if_neg h1, if_neg h2, if_neg h2, if_neg h1]
        exact charListLe_total xs ys

theorem charListLe_trans : ∀ a b c : List Char,
    charListLe a b = true → charListLe b c = true → charListLe a c = true
  | [], _, _, _, _ => rfl
  | _ :: _, [], _, h, _ => by simp [charListLe] at h
  | _ :: _, _ :: _, [], _, h => by simp [charListLe] at h
  | x :: xs, y :: ys, z :: zs, h1, h2 => by
    simp only [charListLe] at h1 h2 ⊢
    by_cases hxy : x.toNat < y.toNat
    · by_cases hyz : y.toNat < z.toNat
      · rw [if_pos (by omega : x.toNat < z.toNat)]
      · by_cases hzy : z.toNat < y.toNat
        · rw [if_neg hyz, if_pos hzy] at h2
          exact absurd h2 (by simp)
        · rw [if_pos (by omega : x.toNat < z.toNat)]
    · by_cases hyx : y.toNat < x.toNat
      · rw [if_neg hxy, if_pos hyx] at h1
        exact absurd h1 (by simp)
      · by_cases hyz : y.toNat < z.toNat
        · rw [if_pos (by omega : x.toNat < z.toNat)]
        · by_cases hzy : z.toNat < y.toNat
          · rw [if_neg hyz, if_pos hzy] at h2
            exact absurd h2 (by simp)
          · rw [if_neg hxy, if_neg hyx] at h1
            rw [if_neg hyz, if_neg hzy] at h2
            rw [if_neg (by omega : ¬ x.toNat < z.toNat),
                if_neg (by omega : ¬ z.toNat < x.toNat)]
            exact charListLe_trans xs ys zs h1 h2

theorem strLe_trans (a b c : String) (h1 : strLe a b = true) (h2 : strLe b c = true) :
    strLe a c = true :=
  charListLe_trans a.data b.data c.data h1 h2

theorem strLe_total (a b : String) : strLe a b = true ∨ strLe b a = true :=
  charListLe_total a.data b.data

theorem charListLe_nil_left (l : List Char) : charListLe [] l = true := rfl

theorem charListLe_nil_right (l : List Char) (h : charListLe l [] = true) : l = [] := by
  cases l with
  | nil => rfl
  | cons c cs => simp [charListLe] at h

theorem strLe_empty_left (s : String) : strLe "" s = true :=
  charListLe_nil_left s.data

theorem strLe_empty_right (s : String) (h : strLe s "" = true) : s = "" := by
  have := charListLe_nil_right s.data h
  cases s
  exact congrArg String.mk this

theorem mem_insertSorted (x y : String × Nat) : ∀ l : List (String × Nat),
    y ∈ insertSorted x l ↔ y = x ∨ y ∈ l := by
  intro l
  induction l with
  | nil => simp [insertSorted]
  | cons z zs ih =>
    simp only [insertSorted]
    split
    · simp
    · simp only [List.mem_cons, ih]
      tauto

theorem perm_insertSorted (x : String × Nat) : ∀ l : List (String × Nat),
    (insertSorted x l).Perm (x :: l) := by
  intro l
  induction l with
  | nil => simp [insertSorted]
  | cons z zs ih =>
    simp only [insertSorted]
    split
    · exact List.Perm.refl _
    · exact (List.Perm.cons z ih).trans (List.Perm.swap x z zs)

theorem perm_sortBatch (b : List (String × Nat)) : (sortBatch b).Perm b := by
  induction b with
  | nil => simp [sortBatch]
  | cons e rest ih =>
    simp only [sortBatch, List.foldr_cons]
    exact (perm_insertSorted e _).trans (List.Perm.cons e ih)

theorem pairwise_insertSorted (x : String × Nat) : ∀ l : List (String × Nat),
    l.Pairwise entryLe → (insertSorted x l).Pairwise entryLe := by
  intro l
  induction l with
  | nil =>
    intro _
    simp [insertSorted]
  | cons y ys ih =>
    intro h
    rw [List.pairwise_cons] at h
    simp only [insertSorted]
    split
    · rename_i hle
      rw [List.pairwise_cons]
      constructor
      · intro z hz
        rcases List.mem_cons.1 hz with hz | hz
        · subst hz
          exact hle
        · exact strLe_trans x.1 y.1 z.1 hle (h.1 z hz)
      · exact List.pairwise_cons.2 h
    · rename_i hle
      rw [List.pairwise_cons]
      constructor
      · intro z hz
        rcases (mem_insertSorted x z ys).1 hz with hz | hz
        · rcases strLe_total x.1 y.1 with h1 | h1
          · exact absurd h1 hle
          · rw [hz]
            exact h1
        · exact h.1 z hz
      · exact ih h.2

theorem pairwise_sortBatch (b : List (String × Nat)) :
    (sortBatch b).Pairwise entryLe := by
  induction b with
  | nil => simp [sortBatch]
  | cons e rest ih =>
    simp only [sortBatch, List.foldr_cons]
    exact pairwise_insertSorted e _ ih

theorem le_maxCount (b : List (String × Nat)) : ∀ e ∈ b, e.2 ≤ maxCount b := by
  induction b with
  | nil => simp
  | cons y rest ih =>
    intro e he
    rcases List.mem_cons.1 he with h1 | h1
    · subst h1
      simp only [maxCount, List.map_cons, List.foldr_cons]
      exact Nat.le_max_left _ _
    · simp only [maxCount, List.map_cons, List.foldr_cons]
      exact le_trans (ih e h1) (Nat.le_max_right _ _)

theorem maxCount_of_all_one (b : List (String × Nat)) (hne : b ≠ [])
    (h : ∀ e ∈ b, e.2 = 1) : maxCount b = 1 := by
  induction b with
  | nil => exact absurd rfl hne
  | cons y rest ih =>
    simp only [maxCount, List.map_cons, List.foldr_cons]
    have hy : y.2 = 1 := h y (List.mem_cons_self _ _)
    cases rest with
    | nil => simp [maxCount, hy]
    | cons z zs =>
      have hr : maxCount (z :: zs) = 1 :=
        ih (by simp) (fun e he => h e (List.mem_cons_of_mem _ he))
      simp only [maxCount, List.map_cons, List.foldr_cons] at hr ⊢
      rw [hr, hy]
      simp

theorem render_of_all_one (b : List (String × Nat)) (hne : b ≠ [])
    (h : ∀ e ∈ b, e.2 = 1) :
    render b = joinComma ((sortBatch b).map (·.1)) := by
  unfold render
  rw [if_pos (maxCount_of_all_one b hne h)]

theorem render_of_repeat (b : List (String × Nat)) (e : String × Nat)
    (he : e ∈ b) (h2 : 2 ≤ e.2) :
    render b = joinComma ((sortBatch b).map fun e => e.1 ++ ":" ++ toString e.2) := by
  unfold render
  have : 2 ≤ maxCount b := le_trans h2 (le_maxCount b e he)
  rw [if_neg (by omega)]

/-! ### Expire lemmas -/

theorem expire_empty (st : SchedState) (t : Nat) (h : st.ready_to_send = []) :
    expire st t = (initState t, none) := by
  unfold expire
  rw [if_pos (by simp [h])]

theorem expire_nonempty (st : SchedState) (t : Nat) (h : st.ready_to_send ≠ []) :
    expire st t =
      ({ notification_index := min (st.notification_index + 1) 6
         next_send_time := t + ladderAt (min (st.notification_index + 1) 6)
         ready_to_send := [] }, some (render st.ready_to_send)) := by
  unfold expire
  rw [if_neg (by simp [h])]
  have hlen : (SECONDS_BETWEEN_NOTIFICATIONS.length : Int) - 1 = 6 := by decide
  rw [hlen]

theorem ladder_saturation (k : Int) (h1 : -1 ≤ k) (h2 : k ≤ 6) :
    0 ≤ min (k + 1) 6 ∧ min (k + 1) 6 ≤ 6 ∧
    ladderAt (min (k + 1) 6) ≤ ladderAt (min (min (k + 1) 6 + 1) 6) ∧
    ladderAt (min (k + 1) 6) ≤ 172800 := by
  interval_cases k <;> exact ⟨by decide, by decide, by decide, by decide⟩

/-! ### Timestamp-parser lemmas -/

theorem head_dropWhile_not (p : Char → Bool) : ∀ (l : List Char) (c : Char),
    (l.dropWhile p).head? = some c → p c = false := by
  intro l
  induction l with
  | nil => intro c h; simp [List.dropWhile] at h
  | cons x xs ih =>
    intro c h
    by_cases hx : p x
    · rw [List.dropWhile_cons_of_pos hx] at h
      exact ih c h
    · rw [List.dropWhile_cons_of_neg hx] at h
      simp only [List.head?_cons, Option.some.injEq] at h
      subst h
      exact Bool.eq_false_iff.2 hx

theorem stripTrailing_last_not_space (l : List Char) (c : Char)
    (h : (stripTrailing l).getLast? = some c) : isPySpace c = false := by
  unfold stripTrailing at h
  rw [List.getLast?_reverse] at h
  exact head_dropWhile_not isPySpace l.reverse c h

theorem takeExactRun_suffix (p : Char → Bool) (n : Nat) (l r : List Char)
    (h : takeExactRun p n l = some r) : r <:+ l := by
  unfold takeExactRun at h
  split at h
  · injection h with h
    exact h ▸ List.dropWhile_suffix p
  · exact absurd h (by simp)

theorem takeRunBetween_suffix (p : Char → Bool) (lo hi : Nat) (l r : List Char)
    (h : takeRunBetween p lo hi l = some r) : r <:+ l := by
  unfold takeRunBetween at h
  split at h
  · injection h with h
    exact h ▸ List.dropWhile_suffix p
  · exact absurd h (by simp)

theorem takeRunAtLeastOne_suffix (p : Char → Bool) (l r : List Char)
    (h : takeRunAtLeastOne p l = some r) : r <:+ l := by
  unfold takeRunAtLeastOne at h
  split at h
  · injection h with h
    exact h ▸ List.dropWhile_suffix p
  · exact absurd h (by simp)

theorem expectChar_suffix (c : Char) (l r : List Char)
    (h : expectChar c l = some r) : r <:+ l := by
  cases l with
  | nil => exact absurd h (by simp [expectChar])
  | cons a rest =>
    simp only [expectChar] at h
    split at h
    · injection h with h
      exact h ▸ List.suffix_cons a rest
    · exact absurd h (by simp)

theorem takeRunAtLeastOne_eq_nil (p : Char → Bool) (l : List Char)
    (h : takeRunAtLeastOne p l = some []) : l ≠ [] ∧ ∀ c ∈ l, p c = true := by
  unfold takeRunAtLeastOne at h
  split at h
  · rename_i hlen
    injection h with h
    refine ⟨?_, List.dropWhile_eq_nil_iff.1 h⟩
    intro hnil
    subst hnil
    simp at hlen
  · exact absurd h (by simp)

/-- A record wholly consumed by the timestamp pattern ends in a whitespace
character (the pattern's final `\s+`). -/
theorem parseTimestamp_eq_nil_last_space (l : List Char)
    (h : parseTimestamp l = some []) :
    ∃ c, l.getLast? = some c ∧ isPySpace c = true := by
  unfold parseTimestamp at h
  simp only [Option.bind_eq_some] at h
  obtain ⟨l1, h1, l2, h2, l3, h3, l4, h4, l5, h5, l6, h6, l7, h7, l8, h8,
    l9, h9, l10, h10, l11, h11, l12, h12, l13, h13, hlast⟩ := h
  obtain ⟨hne, hall⟩ := takeRunAtLeastOne_eq_nil isPySpace l13 hlast
  have s1 : l1 <:+ l := takeExactRun_suffix _ 3 l l1 h1
  have s2 : l2 <:+ l1 := takeRunAtLeastOne_suffix _ l1 l2 h2
  have s3 : l3 <:+ l2 := takeRunBetween_suffix _ 1 2 l2 l3 h3
  have s4 : l4 <:+ l3 := takeRunAtLeastOne_suffix _ l3 l4 h4
  have s5 : l5 <:+ l4 := takeExactRun_suffix _ 4 l4 l5 h5
  have s6 : l6 <:+ l5 := takeRunAtLeastOne_suffix _ l5 l6 h6
  have s7 : l7 <:+ l6 := takeExactRun_suffix _ 2 l6 l7 h7
  have s8 : l8 <:+ l7 := expectChar_suffix ':' l7 l8 h8
  have s9 : l9 <:+ l8 := takeExactRun_suffix _ 2 l8 l9 h9
  have s10 : l10 <:+ l9 := expectChar_suffix ':' l9 l10 h10
  have s11 : l11 <:+ l10 := takeExactRun_suffix _ 2 l10 l11 h11
  have s12 : l12 <:+ l11 := expectChar_suffix '.' l11 l12 h12
  have s13 : l13 <:+ l12 := takeExactRun_suffix _ 9 l12 l13 h13
  have hsuf : l13 <:+ l :=
    s13.trans (s12.trans (s11.trans (s10.trans (s9.trans (s8.trans (s7.trans
      (s6.trans (s5.trans (s4.trans (s3.trans (s2.trans s1)))))))))))
  obtain ⟨pre, hpre⟩ := hsuf
  refine ⟨l13.getLast hne, ?_, hall _ (List.getLast_mem hne)⟩
  rw [← hpre, List.getLast?_append_of_ne_nil pre hne]
  exact List.getLast?_eq_getLast l13 hne

theorem wordChar_not_space (c : Char) (h : isWordChar c = true) :
    isPySpace c = false := by
  by_contra hs
  rw [Bool.not_eq_false] at hs
  simp only [isPySpace, Bool.or_eq_true, beq_iff_eq] at hs
  rcases hs with ((((h1 | h1) | h1) | h1) | h1) | h1 <;>
    (subst h1; exact absurd h (by decide))

theorem takeExactRun_head (p : Char → Bool) (n : Nat) (hn : 0 < n)
    (l r : List Char) (h : takeExactRun p n l = some r) :
    ∃ c cs, l = c :: cs ∧ p c = true := by
  unfold takeExactRun at h
  split at h
  · rename_i hlen
    cases l with
    | nil =>
      simp at hlen
      omega
    | cons c cs =>
      refine ⟨c, cs, rfl, ?_⟩
      by_contra hc
      rw [List.takeWhile_cons_of_neg (by simpa using hc)] at hlen
      simp at hlen
      omega
  · exact absurd h (by simp)

theorem pyStrip_ne_empty_of_parse (s : String)
    (h : parseTimestamp s.data = some []) : pyStrip s ≠ "" := by
  unfold parseTimestamp at h
  simp only [Option.bind_eq_some] at h
  obtain ⟨l1, h1, -⟩ := h
  obtain ⟨c, cs, hdata, hc⟩ := takeExactRun_head isWordChar 3 (by omega) s.data l1 h1
  intro hempty
  have hd : stripTrailing (s.data.dropWhile isPySpace) = [] := by
    have := congrArg String.data hempty
    simpa [pyStrip] using this
  have hns : isPySpace c = false := wordChar_not_space c hc
  have hdw : s.data.dropWhile isPySpace = s.data := by
    rw [hdata]
    exact List.dropWhile_cons_of_neg (by simp [hns])
  rw [hdw, hdata] at hd
  unfold stripTrailing at hd
  have hrev : (c :: cs).reverse.dropWhile isPySpace = [] := by
    have := congrArg List.reverse hd
    simpa using this
  have hall := List.dropWhile_eq_nil_iff.1 hrev
  have : isPySpace c = true := hall c (by simp)
  rw [hns] at this
  exact Bool.false_ne_true this

/-- The delivered label is empty exactly when the whitespace-stripped record
is empty: the regex can never consume all of a stripped record, because its
final `\s+` would have to match trailing whitespace that `strip()` removed. -/
theorem stripTimestamp_pyStrip_empty_iff (s : String) :
    stripTimestamp (pyStrip s) = "" ↔ pyStrip s = "" := by
  constructor
  · intro h
    unfold stripTimestamp at h
    cases hp : parseTimestamp (pyStrip s).data with
    | none =>
      rw [hp] at h
      exact h
    | some rest =>
      rw [hp] at h
      have hrest : rest = [] := by
        have := congrArg String.data h
        simpa using this
      subst hrest
      obtain ⟨c, hc1, hc2⟩ := parseTimestamp_eq_nil_last_space _ hp
      have hns : isPySpace c = false :=
        stripTrailing_last_not_space (s.data.dropWhile isPySpace) c hc1
      rw [hns] at hc2
      exact absurd hc2 Bool.false_ne_true
  · intro h
    rw [h]
    rfl

theorem sortBatch_head_key_empty (b : List (String × Nat)) (c : Nat)
    (h0 : ("", c) ∈ b) :
    ∃ e tail, sortBatch b = e :: tail ∧ e.1 = "" := by
  have hmem : (("", c) : String × Nat) ∈ sortBatch b := (perm_sortBatch b).mem_iff.2 h0
  have hpw := pairwise_sortBatch b
  cases hs : sortBatch b with
  | nil =>
    rw [hs] at hmem
    simp at hmem
  | cons e tail =>
    refine ⟨e, tail, rfl, ?_⟩
    rw [hs] at hmem hpw
    rcases List.mem_cons.1 hmem with h1 | h1
    · rw [← h1]
    · exact strLe_empty_right e.1 ((List.pairwise_cons.1 hpw).1 _ h1)

theorem empty_append_str (s : String) : "" ++ s = s := by
  cases s
  rfl

/-- With an empty-string label pending among at least two labels, all with
count 1, the rendered text begins with the bare separator. -/
theorem render_starts_with_sep (b : List (String × Nat)) (c : Nat)
    (h0 : ("", c) ∈ b) (hall : ∀ e ∈ b, e.2 = 1) (hlen : 2 ≤ b.length) :
    ∃ t, render b = ", " ++ t := by
  have hne : b ≠ [] := by
    intro hb
    rw [hb] at h0
    simp at h0
  rw [render_of_all_one b hne hall]
  obtain ⟨e, tail, hs, hk⟩ := sortBatch_head_key_empty b c h0
  have hlen2 : 2 ≤ (sortBatch b).length := by
    rw [(perm_sortBatch b).length_eq]
    exact hlen
  cases tail with
  | nil =>
    rw [hs] at hlen2
    simp at hlen2
  | cons y ys =>
    rw [hs]
    refine ⟨joinComma (y.1 :: ys.map (·.1)), ?_⟩
    simp only [List.map_cons, joinComma, hk]
    rw [empty_append_str]

/-! ### Claims -/

/-- C1: in every state with `notification_index ≥ 0` (Armed is index 0,
Escalated is index ≥ 1) a submit only increments the submitted label's count
in the pending batch; the deadline `next_send_time` and the ladder index are
unchanged, so the flush still fires at the originally scheduled deadline. -/
theorem C1_submit_frame (st : SchedState) (l : String) (t : Nat)
    (h : 0 ≤ st.notification_index) :
    (submit st l t).next_send_time = st.next_send_time ∧
    (submit st l t).notification_index = st.notification_index ∧
    getCount (submit st l t).ready_to_send l = getCount st.ready_to_send l + 1 ∧
    ∀ x, x ≠ l →
      getCount (submit st l t).ready_to_send x = getCount st.ready_to_send x := by
  have hne : st.notification_index ≠ -1 := by omega
  obtain ⟨hi, ht⟩ := submit_frame st l t hne
  refine ⟨ht, hi, ?_, ?_⟩
  · rw [submit_ready]
    exact getCount_bump_same _ _
  · intro x hx
    rw [submit_ready]
    exact getCount_bump_ne _ _ _ hx

/-- C1 witness: the frame property at a concrete Escalated state. -/
theorem C1_submit_frame_witness :
    (submit ⟨2, 500, [("a", 1)]⟩ "b" 450).next_send_time = 500 ∧
    (submit ⟨2, 500, [("a", 1)]⟩ "b" 450).notification_index = 2 ∧
    getCount (submit ⟨2, 500, [("a", 1)]⟩ "b" 450).ready_to_send "b" = 1 := by
  have h := C1_submit_frame ⟨2, 500, [("a", 1)]⟩ "b" 450 (by decide)
  exact ⟨h.1, h.2.1, h.2.2.1⟩

/-- C3: deadline expiry with an empty pending batch (from any state) resets
to the idle state: index `-1` ("none"), deadline `now + MAX`, and the next
submit after that re-arms with `ladder[0] = 30` seconds at index 0, not the
previously escalated index. -/
theorem C3_idle_reset (st : SchedState) (t : Nat) (h : st.ready_to_send = []) :
    expire st t =
      ({ notification_index := -1
         next_send_time := t + MAX_SECONDS_BETWEEN_NOTIFICATIONS
         ready_to_send := [] }, none) ∧
    ∀ (l : String) (t' : Nat),
      submit (expire st t).1 l t' =
        { notification_index := 0
          next_send_time := t' + 30
          ready_to_send := [(l, 1)] } := by
  have e := expire_empty st t h
  refine ⟨by rw [e]; rfl, ?_⟩
  intro l t'
  rw [e]
  rfl

/-- C3 witness: idle reset applied at a concrete escalated state. -/
theorem C3_idle_reset_witness :
    expire ⟨3, 100, ([] : List (String × Nat))⟩ 100 =
      ({ notification_index := -1, next_send_time := 100 + 86400*60,
         ready_to_send := [] }, none) ∧
    submit (expire ⟨3, 100, ([] : List (String × Nat))⟩ 100).1 "x" 200 =
      { notification_index := 0, next_send_time := 230, ready_to_send := [("x", 1)] } := by
  have h := C3_idle_reset ⟨3, 100, []⟩ 100 rfl
  exact ⟨h.1, h.2 "x" 200⟩

/-- C6 counterexample: in Scenario B the flush 30 seconds after the single
idle-state submit of "pool_fault" leaves the scheduler at ladder index 1
(with the claimed deadline `now + 300`), not at index 0 as claimed. -/
theorem C6_counterexample :
    (expire (submit (initState 0) "pool_fault" 100) 130).2 = some "pool_fault" ∧
    (expire (submit (initState 0) "pool_fault" 100) 130).1.next_send_time = 130 + 300 ∧
    ¬ (expire (submit (initState 0) "pool_fault" 100) 130).1.notification_index = 0 := by
  refine ⟨rfl, rfl, by decide⟩

/-- C6 (amended): a single "pool_fault" submitted while idle moves the index
from -1 to 0 and arms the deadline 30 seconds out; the flush at that deadline
sends exactly "pool_fault", advances the index to 1, and sets the new
deadline to flush time + 300 seconds (= ladder[1]). -/
theorem C6_scenario_b (t0 t : Nat)
    (ht : t < t0 + MAX_SECONDS_BETWEEN_NOTIFICATIONS) :
    submit (initState t0) "pool_fault" t =
      { notification_index := 0
        next_send_time := t + 30
        ready_to_send := [("pool_fault", 1)] } ∧
    expire (submit (initState t0) "pool_fault" t) (t + 30) =
      ({ notification_index := 1
         next_send_time := (t + 30) + 300
         ready_to_send := [] }, some "pool_fault") := by
  exact ⟨rfl, rfl⟩

/-- C6 witness: Scenario B at concrete times. -/
theorem C6_scenario_b_witness :
    expire (submit (initState 0) "pool_fault" 100) 130 =
      ({ notification_index := 1, next_send_time := 430, ready_to_send := [] },
       some "pool_fault") := by
  exact (C6_scenario_b 0 100 (by decide)).2

/-- C8 counterexample: a failing scrub-status query while evaluating a
scrub-finish record is not absorbed: the per-event evaluation produces the
propagating error, not a delivered ("not suppressing") label. -/
theorem C8_counterexample :
    processLine [] (.error ()) "sysevent.fs.zfs.scrub_finish" = .error () ∧
    (Except.error () : Except Unit (Option String)) ≠
      .ok (some "sysevent.fs.zfs.scrub_finish") := by
  exact ⟨rfl, by simp⟩

/-- C8 (amended): if the scrub-status oracle fails while evaluating a
scrub-finish record (one not caught by the ignore-list), the exception
propagates out of the per-event evaluation of the intake loop — there is no
local absorption and no "not suppressing" fallback. -/
theorem C8_oracle_fault_propagates (lines : List String) (raw : String)
    (h1 : uninteresting_events.any (fun e => containsSubstr (pyStrip raw) e) = false)
    (h2 : containsSubstr (pyStrip raw) "sysevent.fs.zfs.scrub_finish" = true) :
    processLine lines (.error ()) raw = .error () := by
  simp [processLine, h1, h2, is_scrub_in_progress]

/-- C8 witness: the propagation at a concrete record. -/
theorem C8_oracle_fault_propagates_witness :
    processLine ["x"] (.error ()) " sysevent.fs.zfs.scrub_finish " = .error () :=
  C8_oracle_fault_propagates ["x"] " sysevent.fs.zfs.scrub_finish "
    (by decide) (by decide)

/-- C2: over two consecutive flushes with no intervening idle transition
(arbitrary submits in between), the ladder index advances as
`min(index+1, len(ladder)-1)`, the second scheduled wait interval is at
least the first, and neither interval exceeds the ladder's last entry
(48 h = 172800 s). -/
theorem C2_escalation_monotone (k : Int) (dl t t1 : Nat)
    (b subs : List (String × Nat)) (hb : b ≠ []) (hk1 : -1 ≤ k) (hk2 : k ≤ 6)
    (hne : (applySubmits (expire ⟨k, dl, b⟩ t).1 subs).ready_to_send ≠ []) :
    (expire ⟨k, dl, b⟩ t).1.notification_index = min (k + 1) 6 ∧
    (expire (applySubmits (expire ⟨k, dl, b⟩ t).1 subs) t1).1.notification_index
      = min (min (k + 1) 6 + 1) 6 ∧
    (expire ⟨k, dl, b⟩ t).1.next_send_time - t
      ≤ (expire (applySubmits (expire ⟨k, dl, b⟩ t).1 subs) t1).1.next_send_time - t1 ∧
    (expire ⟨k, dl, b⟩ t).1.next_send_time - t ≤ 172800 ∧
    (expire (applySubmits (expire ⟨k, dl, b⟩ t).1 subs) t1).1.next_send_time - t1
      ≤ 172800 := by
  obtain ⟨hs0, hs6, hmono, hcap⟩ := ladder_saturation k hk1 hk2
  have e1 : expire ⟨k, dl, b⟩ t =
      ({ notification_index := min (k + 1) 6
         next_send_time := t + ladderAt (min (k + 1) 6)
         ready_to_send := [] }, some (render b)) := expire_nonempty _ t hb
  have hAn : (expire ⟨k, dl, b⟩ t).1.notification_index = min (k + 1) 6 := by
    rw [e1]
  have hAt : (expire ⟨k, dl, b⟩ t).1.next_send_time
      = t + ladderAt (min (k + 1) 6) := by
    rw [e1]
  obtain ⟨hfi, hft⟩ := applySubmits_frame subs (expire ⟨k, dl, b⟩ t).1
    (by rw [hAn]; omega)
  have e2 : expire (applySubmits (expire ⟨k, dl, b⟩ t).1 subs) t1 =
      ({ notification_index :=
           min ((applySubmits (expire ⟨k, dl, b⟩ t).1 subs).notification_index + 1) 6
         next_send_time := t1 + ladderAt
           (min ((applySubmits (expire ⟨k, dl, b⟩ t).1 subs).notification_index + 1) 6)
         ready_to_send := [] },
       some (render (applySubmits (expire ⟨k, dl, b⟩ t).1 subs).ready_to_send)) :=
    expire_nonempty _ t1 hne
  have hidx : (applySubmits (expire ⟨k, dl, b⟩ t).1 subs).notification_index
      = min (k + 1) 6 := by
    rw [hfi, hAn]
  have hBn : (expire (applySubmits (expire ⟨k, dl, b⟩ t).1 subs) t1).1.notification_index
      = min (min (k + 1) 6 + 1) 6 := by
    rw [e2, ← hidx]
  have hBt : (expire (applySubmits (expire ⟨k, dl, b⟩ t).1 subs) t1).1.next_send_time
      = t1 + ladderAt (min (min (k + 1) 6 + 1) 6) := by
    rw [e2, ← hidx]
  obtain ⟨hs0', hs6', hmono', hcap'⟩ :=
    ladder_saturation (min (k + 1) 6) (by omega) hs6
  refine ⟨hAn, hBn, ?_, ?_, ?_⟩
  · rw [hAt, hBt]
    omega
  · rw [hAt]
    omega
  · rw [hBt]
    omega

/-- C2 witness: two flushes from index 0 with one intervening submit. -/
theorem C2_escalation_monotone_witness :
    (expire ⟨0, 40, [("a", 1)]⟩ 40).1.notification_index = 1 ∧
    (expire (applySubmits (expire ⟨0, 40, [("a", 1)]⟩ 40).1 [("b", 50)]) 340).1.notification_index = 2 ∧
    (expire ⟨0, 40, [("a", 1)]⟩ 40).1.next_send_time - 40
      ≤ (expire (applySubmits (expire ⟨0, 40, [("a", 1)]⟩ 40).1 [("b", 50)]) 340).1.next_send_time - 340 := by
  have h := C2_escalation_monotone 0 40 40 340 [("a", 1)] [("b", 50)]
    (by decide) (by decide) (by decide) (by decide)
  exact ⟨h.1, h.2.1, h.2.2.1⟩

/-- C4: for a nonempty batch (all counts at least 1, the batch invariant)
the notification is the comma-join of the lexicographically sorted entries
(`sortBatch b` is a sorted permutation of the batch), where either every
count is 1 and every entry is a bare label, or some count exceeds 1 and
every entry carries a `:count` suffix — never a mix of the two forms. -/
theorem C4_render_format (b : List (String × Nat)) (hne : b ≠ [])
    (hpos : ∀ e ∈ b, 1 ≤ e.2) :
    (sortBatch b).Perm b ∧
    (sortBatch b).Pairwise entryLe ∧
    ((∀ e ∈ b, e.2 = 1) ∨ (∃ e ∈ b, 2 ≤ e.2)) ∧
    ((∀ e ∈ b, e.2 = 1) → render b = joinComma ((sortBatch b).map (·.1))) ∧
    ((∃ e ∈ b, 2 ≤ e.2) →
      render b = joinComma ((sortBatch b).map fun e => e.1 ++ ":" ++ toString e.2)) := by
  refine ⟨perm_sortBatch b, pairwise_sortBatch b, ?_, ?_, ?_⟩
  · by_cases h : ∀ e ∈ b, e.2 = 1
    · exact Or.inl h
    · right
      push_neg at h
      obtain ⟨e, he, hc⟩ := h
      exact ⟨e, he, by have := hpos e he; omega⟩
  · intro h
    exact render_of_all_one b hne h
  · rintro ⟨e, he, hc⟩
    exact render_of_repeat b e he hc

/-- C4 witness: a batch with a repeated label renders every entry with an
explicit count. -/
theorem C4_render_format_witness :
    render [("b", 1), ("a", 2)] =
      joinComma ((sortBatch [("b", 1), ("a", 2)]).map fun e => e.1 ++ ":" ++ toString e.2) ∧
    render [("b", 1), ("a", 2)] = "a:2, b:1" := by
  have h := C4_render_format [("b", 1), ("a", 2)] (by decide) (by decide)
  exact ⟨h.2.2.2.2 ⟨("a", 2), by decide, by decide⟩, by decide⟩

/-- C5: a burst of submits into a cleared batch (arbitrary arrival times
before the deadline) is flushed as one notification rendering the
accumulated batch; each submitted label appears exactly once among the
rendered entries, with count equal to its number of submissions, and no
submitted label is missing. -/
theorem C5_no_drop (idx : Int) (dl t : Nat) (subs : List (String × Nat))
    (hsub : subs ≠ []) (b : List (String × Nat))
    (hb : b = (applySubmits ⟨idx, dl, []⟩ subs).ready_to_send) :
    (expire (applySubmits ⟨idx, dl, []⟩ subs) t).2 = some (render b) ∧
    (∀ x, getCount b x = (subs.map Prod.fst).count x) ∧
    ((sortBatch b).map Prod.fst).Nodup ∧
    (∀ x, x ∈ (sortBatch b).map Prod.fst ↔ x ∈ subs.map Prod.fst) ∧
    (∀ e ∈ sortBatch b, e.2 = (subs.map Prod.fst).count e.1) := by
  have hready : (applySubmits ⟨idx, dl, []⟩ subs).ready_to_send =
      (subs.map Prod.fst).foldl bump [] := by
    rw [applySubmits_ready]
  subst hb
  rw [hready]
  have hbne : (subs.map Prod.fst).foldl bump [] ≠ [] := by
    cases hsubs : subs with
    | nil => exact absurd hsubs hsub
    | cons s rest =>
      subst hsubs
      intro hnil
      have hm : s.1 ∈ (((s :: rest).map Prod.fst).foldl bump []).map Prod.fst :=
        (mem_keys_foldl_bump _ [] s.1).2 (Or.inr (by simp))
      rw [hnil] at hm
      simp at hm
  have hnd : (((subs.map Prod.fst).foldl bump []).map Prod.fst).Nodup :=
    nodup_keys_foldl_bump _ [] (by simp)
  have hcnt : ∀ x, getCount ((subs.map Prod.fst).foldl bump []) x =
      (subs.map Prod.fst).count x := by
    intro x
    rw [getCount_foldl_bump]
    simp [getCount]
  have hpos : ∀ e ∈ (subs.map Prod.fst).foldl bump [], 1 ≤ e.2 :=
    counts_pos_foldl_bump _ [] (by simp)
  have hpermkeys := (perm_sortBatch ((subs.map Prod.fst).foldl bump [])).map Prod.fst
  refine ⟨?_, hcnt, ?_, ?_, ?_⟩
  · rw [expire_nonempty _ t (by rw [hready]; exact hbne), hready]
  · exact hpermkeys.nodup_iff.2 hnd
  · intro x
    rw [hpermkeys.mem_iff, mem_keys_foldl_bump]
    simp
  · intro e he
    have heb : e ∈ (subs.map Prod.fst).foldl bump [] :=
      (perm_sortBatch _).mem_iff.1 he
    obtain ⟨k, c⟩ := e
    have := getCount_eq_of_mem _ k c hnd heb
    rw [← this, hcnt k]

/-- C5 witness: a concrete burst with one repeat. -/
theorem C5_no_drop_witness :
    (expire (applySubmits ⟨-1, 999, []⟩ [("x", 1), ("y", 2), ("x", 3)]) 31).2 =
      some (render (applySubmits ⟨-1, 999, ([] : List (String × Nat))⟩
        [("x", 1), ("y", 2), ("x", 3)]).ready_to_send) ∧
    getCount (applySubmits ⟨-1, 999, ([] : List (String × Nat))⟩
        [("x", 1), ("y", 2), ("x", 3)]).ready_to_send "x" = 2 := by
  have h := C5_no_drop (-1) 999 31 [("x", 1), ("y", 2), ("x", 3)] (by decide) _ rfl
  exact ⟨h.1, by rw [h.2.1 "x"]; decide⟩

/-- C7: with the status oracle answering (no exception), every raw record is
either discarded — and then because of the ignore-list, the scrub-finish
suppression, or the startup snapshot — or delivered as exactly one label,
the timestamp-stripped record; and when the timestamp pattern does not match,
the stripping is a no-op, so the record is delivered unchanged rather than
treated as an error. -/
theorem C7_intake_contract (lines : List String) (statusOut raw : String) :
    ((processLine lines (.ok statusOut) raw = .ok none ∧
       (uninteresting_events.any (fun e => containsSubstr (pyStrip raw) e) = true ∨
        (containsSubstr (pyStrip raw) "sysevent.fs.zfs.scrub_finish" = true ∧
         is_scrub_in_progress (.ok statusOut) = .ok true) ∨
        pyStrip raw ∈ lines)) ∨
     processLine lines (.ok statusOut) raw = .ok (some (stripTimestamp (pyStrip raw)))) ∧
    (parseTimestamp (pyStrip raw).data = none →
      stripTimestamp (pyStrip raw) = pyStrip raw) := by
  constructor
  · by_cases h1 : uninteresting_events.any (fun e => containsSubstr (pyStrip raw) e) = true
    · left
      exact ⟨by simp [processLine, h1], Or.inl h1⟩
    · by_cases h2 : containsSubstr (pyStrip raw) "sysevent.fs.zfs.scrub_finish" = true
      · cases hf : (splitLines statusOut.data).any
            (fun line => listContainsSub line "scrub in progress".data) with
        | true =>
          left
          refine ⟨?_, Or.inr (Or.inl ⟨h2, by simp [is_scrub_in_progress, hf]⟩)⟩
          simp [processLine, h1, h2, is_scrub_in_progress, hf]
        | false =>
          by_cases h3 : pyStrip raw ∈ lines
          · left
            exact ⟨by simp [processLine, h1, h2, is_scrub_in_progress, hf, h3],
                   Or.inr (Or.inr h3)⟩
          · right
            simp [processLine, h1, h2, is_scrub_in_progress, hf, h3]
      · by_cases h3 : pyStrip raw ∈ lines
        · left
          exact ⟨by simp [processLine, h1, h2, h3], Or.inr (Or.inr h3)⟩
        · right
          simp [processLine, h1, h2, h3]
  · intro hp
    unfold stripTimestamp
    rw [hp]

/-- C7 witness: a malformed (timestampless) record passes through unchanged. -/
theorem C7_intake_contract_witness :
    processLine ["old"] (.ok "state: ONLINE") "broken record" = .ok (some "broken record") ∧
    stripTimestamp (pyStrip "broken record") = pyStrip "broken record" := by
  have h := C7_intake_contract ["old"] "state: ONLINE" "broken record"
  refine ⟨?_, h.2 (by decide)⟩
  rcases h.1 with ⟨hd, hwhy⟩ | hdel
  · rcases hwhy with hw | hw | hw
    · exact absurd hw (by decide)
    · exact absurd hw.1 (by decide)
    · exact absurd hw (by decide)
  · rw [hdel]
    rfl

/-- C10 counterexample: the record "Jan  1 2023 00:00:00.000000000 "
consists of exactly a matching timestamp prefix (the pattern consumes it
entirely), yet intake — which strips surrounding whitespace first (line 137)
— delivers the whole stripped text as the label, not the empty string. -/
theorem C10_counterexample :
    parseTimestamp ("Jan  1 2023 00:00:00.000000000 ").data = some [] ∧
    processLine [] (.ok "") "Jan  1 2023 00:00:00.000000000 " =
      .ok (some "Jan  1 2023 00:00:00.000000000") ∧
    ("Jan  1 2023 00:00:00.000000000" : String) ≠ "" := by
  refine ⟨by decide, rfl, by decide⟩

/-- C10 (amended): intake strips surrounding whitespace before applying the
timestamp pattern, whose final `\s+` can then never reach the end of the
record; hence the delivered label is empty exactly when the stripped record
is empty, and in particular a record consisting of exactly a matching
timestamp prefix yields a nonempty label (its own stripped text), not the
empty string.  Were an empty-string label nevertheless pending together with
other labels (all counts 1), it would sort first and the rendered
notification would begin with a bare comma-space separator. -/
theorem C10_no_empty_label :
    (∀ s : String, stripTimestamp (pyStrip s) = "" ↔ pyStrip s = "") ∧
    (∀ s : String, parseTimestamp s.data = some [] →
      stripTimestamp (pyStrip s) ≠ "") ∧
    (∀ (b : List (String × Nat)) (c : Nat), ("", c) ∈ b →
      (∀ e ∈ b, e.2 = 1) → 2 ≤ b.length → ∃ t, render b = ", " ++ t) := by
  refine ⟨stripTimestamp_pyStrip_empty_iff, ?_, render_starts_with_sep⟩
  intro s hp h
  exact pyStrip_ne_empty_of_parse s hp ((stripTimestamp_pyStrip_empty_iff s).1 h)

/-- C10 witness: the amended claim at the concrete timestamp-only record and
at a concrete batch holding the empty label. -/
theorem C10_no_empty_label_witness :
    stripTimestamp (pyStrip "Jan  1 2023 00:00:00.000000000 ") ≠ "" ∧
    ∃ t, render [("", 1), ("x", 1)] = ", " ++ t := by
  have h := C10_no_empty_label
  exact ⟨h.2.1 "Jan  1 2023 00:00:00.000000000 " (by decide),
         h.2.2 [("", 1), ("x", 1)] 1 (by decide) (by decide) (by decide)⟩

end ZpoolEvents
